import Mathlib

/-!
Verification of the statistics-extraction scripts of this repository
(analysis/q5_collect_a15.py and analysis/q4_estimate_a7.py).

Modelling conventions:
* Python floats are idealised as exact rationals together with a NaN value
  (type PFloat).  Rounding and overflow to infinity are not modelled; the
  stat reports hold decimal numerals and the claims under scrutiny are about
  data flow (sums, quotients, NaN propagation), not rounding.
* Fallible Python operations (float division, which can raise
  ZeroDivisionError, and functions that raise ValueError / RuntimeError)
  are modelled with Option: none is the raised exception.
* A file on disk is modelled as Option (List String): none is a missing
  file, some ls is the list of lines of its text (splitlines).
* Regular-expression matching is modelled by hand-rolled deterministic
  matchers.  Each regex used by the scripts is backtracking-free (every
  greedy piece is followed by a piece that cannot consume the same
  characters), so maximal-munch scanning is faithful.
* Python str.lower is modelled by Char.toLower (ASCII lowering; the cause
  strings involved are ASCII).
* Python float(...) string conversion is modelled for finite decimal
  literals (sign, digits, fraction, exponent); the "inf"/"nan" words and
  underscore digit separators accepted by CPython are not modelled, as the
  reports contain only plain numerals.
-/

namespace Gem5

/-- A Python float value: either NaN or an exact rational. -/
inductive PFloat where
  | nan : PFloat
  | val : ℚ → PFloat
deriving DecidableEq, Repr

/-- math.isnan. -/
def PFloat.isNan : PFloat → Bool
  | .nan => true
  | .val _ => false

/-- Python float addition (NaN propagates). -/
def PFloat.add : PFloat → PFloat → PFloat
  | .val a, .val b => .val (a + b)
  | _, _ => .nan

instance : Add PFloat := ⟨PFloat.add⟩

/-- Python comparison x == 0 on a float (False for NaN). -/
def PFloat.eqZero : PFloat → Bool
  | .val a => a == 0
  | .nan => false

/-- Python comparison x < y on floats (False whenever either side is NaN). -/
def PFloat.lt : PFloat → PFloat → Bool
  | .val a, .val b => decide (a < b)
  | _, _ => false

/-- Python float division x / y.  Raises ZeroDivisionError (modelled as
none) exactly when the denominator compares equal to zero; otherwise NaN
operands propagate to a NaN result. -/
def PFloat.div (x y : PFloat) : Option PFloat :=
  match y with
  | .val b =>
    if b = 0 then none
    else
      match x with
      | .val a => some (.val (a / b))
      | .nan => some .nan
  | .nan => some .nan

/-- Embeds safe_div of q5_collect_a15.py: guard against a zero denominator
and NaN operands, then divide.  The Option records whether the raw division
raised. -/
def safe_div (num den : PFloat) : Option PFloat :=
  if den.eqZero || num.isNan || den.isNan then some .nan
  else PFloat.div num den

/-- Total wrapper for safe_div, used where the scripts use its result as a
plain float (safe_div never actually raises; see the safe_div theorem). -/
def safe_divT (num den : PFloat) : PFloat :=
  (safe_div num den).getD .nan

/-- Embeds the RunMetrics dataclass of q5_collect_a15.py. -/
structure RunMetrics where
  sim_seconds : PFloat
  sim_insts : PFloat
  num_cycles : PFloat
  ipc : PFloat
  cpi : PFloat
  l1i_miss_rate : PFloat
  l1d_miss_rate : PFloat
  l2_miss_rate : PFloat
  l1i_accesses : PFloat
  l1i_misses : PFloat
  l1d_accesses : PFloat
  l1d_misses : PFloat
  l2_accesses : PFloat
  l2_misses : PFloat
  bp_cond_pred : PFloat
  bp_cond_incorrect : PFloat
deriving DecidableEq, Repr

/-- Embeds sum_runs of q5_collect_a15.py: sum all raw counters of the two
records and recompute every derived rate from the summed counters. -/
def sum_runs (a b : RunMetrics) : RunMetrics :=
  let sim_seconds := a.sim_seconds + b.sim_seconds
  let sim_insts := a.sim_insts + b.sim_insts
  let num_cycles := a.num_cycles + b.num_cycles
  let ipc := safe_divT sim_insts num_cycles
  let cpi := safe_divT num_cycles sim_insts
  let l1i_accesses := a.l1i_accesses + b.l1i_accesses
  let l1i_misses := a.l1i_misses + b.l1i_misses
  let l1d_accesses := a.l1d_accesses + b.l1d_accesses
  let l1d_misses := a.l1d_misses + b.l1d_misses
  let l2_accesses := a.l2_accesses + b.l2_accesses
  let l2_misses := a.l2_misses + b.l2_misses
  let l1i_miss_rate := safe_divT l1i_misses l1i_accesses
  let l1d_miss_rate := safe_divT l1d_misses l1d_accesses
  let l2_miss_rate := safe_divT l2_misses l2_accesses
  let bp_cond_pred := a.bp_cond_pred + b.bp_cond_pred
  let bp_cond_incorrect := a.bp_cond_incorrect + b.bp_cond_incorrect
  { sim_seconds := sim_seconds
    sim_insts := sim_insts
    num_cycles := num_cycles
    ipc := ipc
    cpi := cpi
    l1i_miss_rate := l1i_miss_rate
    l1d_miss_rate := l1d_miss_rate
    l2_miss_rate := l2_miss_rate
    l1i_accesses := l1i_accesses
    l1i_misses := l1i_misses
    l1d_accesses := l1d_accesses
    l1d_misses := l1d_misses
    l2_accesses := l2_accesses
    l2_misses := l2_misses
    bp_cond_pred := bp_cond_pred
    bp_cond_incorrect := bp_cond_incorrect }

/-- ASCII whitespace as recognised by Python's str.strip, str.split and
the regex class backslash-s. -/
def pySpace (c : Char) : Bool :=
  c = ' ' || c = '\t' || c = '\n' || c = '\r' || c = '\x0b' || c = '\x0c'

/-- Drop trailing whitespace. -/
def dropTrailing (s : List Char) : List Char :=
  (s.reverse.dropWhile pySpace).reverse

/-- Python str.strip: drop leading and trailing whitespace. -/
def pyStrip (s : List Char) : List Char :=
  dropTrailing (s.dropWhile pySpace)

/-- Numeric value of a digit character. -/
def digitVal (c : Char) : ℕ := c.toNat - 48

/-- Value of a digit string read in base 10 (how int() and the integer
parts of float() read digit runs). -/
def digitsToNat (ds : List Char) : ℕ :=
  ds.foldl (fun n c => 10 * n + digitVal c) 0

/-- Value of the fractional digit string fd, i.e. 0.fd. -/
def fracDigitsVal (fd : List Char) : ℚ :=
  (digitsToNat fd : ℚ) / (10 : ℚ) ^ fd.length

/-- Characters allowed in the name group of STAT_LINE_RE (anything except
a hash mark and whitespace). -/
def nameChar (c : Char) : Bool := !(c = '#') && !pySpace c

/-- Consume an optional leading sign, returning its value as a factor. -/
def parseSign (s : List Char) : ℚ × List Char :=
  match s with
  | c :: t => if c = '-' then (-1, t) else if c = '+' then (1, t) else (1, s)
  | [] => (1, s)

/-- Consume an optional leading sign, returning its value as an integer
factor (the sign of an exponent). -/
def parseSignZ (s : List Char) : ℤ × List Char :=
  match s with
  | c :: t => if c = '-' then (-1, t) else if c = '+' then (1, t) else (1, s)
  | [] => (1, s)

/-- Consume an optional fractional part: a dot followed by at least one
digit.  A dot not followed by a digit is left unconsumed (the overall
match then fails on the unconsumed dot, exactly as the regex does after
backtracking out of the optional group). -/
def parseFrac (s : List Char) : ℚ × List Char :=
  match s with
  | c :: t =>
    if c = '.' then
      if (t.takeWhile Char.isDigit).isEmpty then (0, s)
      else (fracDigitsVal (t.takeWhile Char.isDigit), t.dropWhile Char.isDigit)
    else (0, s)
  | [] => (0, s)

/-- Consume an optional exponent part: e or E, an optional sign, and at
least one digit.  A failed exponent is left unconsumed, making the overall
match fail on the unconsumed letter, exactly as the regex does. -/
def parseExp (s : List Char) : ℤ × List Char :=
  match s with
  | c :: t =>
    if c = 'e' || c = 'E' then
      if ((parseSignZ t).2.takeWhile Char.isDigit).isEmpty then (0, s)
      else
        ((parseSignZ t).1 * (digitsToNat ((parseSignZ t).2.takeWhile Char.isDigit) : ℤ),
          (parseSignZ t).2.dropWhile Char.isDigit)
    else (0, s)
  | [] => (0, s)

/-- Match the value group of STAT_LINE_RE at the head of s: an optional
sign, digits, an optional fraction and an optional exponent.  Returns the
rational value and the rest of the input. -/
def parseNum (s : List Char) : Option (ℚ × List Char) :=
  if (((parseSign s).2).takeWhile Char.isDigit).isEmpty then none
  else
    some ((parseSign s).1 *
        ((digitsToNat (((parseSign s).2).takeWhile Char.isDigit) : ℚ) +
          (parseFrac (((parseSign s).2).dropWhile Char.isDigit)).1) *
        (10 : ℚ) ^ (parseExp (parseFrac (((parseSign s).2).dropWhile Char.isDigit)).2).1,
      (parseExp (parseFrac (((parseSign s).2).dropWhile Char.isDigit)).2).2)

/-- Match STAT_LINE_RE against a whole (already stripped) line: a name of
non-hash non-space characters, whitespace, a numeric value, optional
whitespace and an optional hash comment running to the end of the line. -/
def matchStat (s : List Char) : Option (List Char × ℚ) :=
  if (s.takeWhile nameChar).isEmpty then none
  else if ((s.dropWhile nameChar).takeWhile pySpace).isEmpty then none
  else
    match parseNum ((s.dropWhile nameChar).dropWhile pySpace) with
    | none => none
    | some (q, r3) =>
      match r3.dropWhile pySpace with
      | [] => some (s.takeWhile nameChar, q)
      | c :: _ => if c = '#' then some (s.takeWhile nameChar, q) else none

/-- Process one line of a stats report as the loop body of
parse_stats_file does: strip it, skip it when it is blank or starts with a
dash, otherwise match it against STAT_LINE_RE.  (The float() call on the
matched value group cannot raise, since the group is a decimal literal; it
is modelled by the exact value computed in matchStat.) -/
def parse_line (line : String) : Option (String × PFloat) :=
  match pyStrip line.data with
  | [] => none
  | c :: _ =>
    if c = '-' then none
    else
      match matchStat (pyStrip line.data) with
      | none => none
      | some (nm, q) => some (String.mk nm, PFloat.val q)

/-- Embeds parse_stats_file of q5_collect_a15.py.  The produced dict is
modelled as the list of (name, value) bindings in insertion order; lookups
take the last binding of a name, matching dict assignment semantics. -/
def parse_stats_file (file : Option (List String)) : List (String × PFloat) :=
  match file with
  | none => []
  | some lines =>
    lines.foldl
      (fun d line =>
        match parse_line line with
        | none => d
        | some kv => d ++ [kv])
      []

/-- Lookup in the dict model: the last binding of a key wins, as in a
Python dict built by repeated assignment. -/
def dictLookup (d : List (String × PFloat)) (k : String) : Option PFloat :=
  (d.reverse.find? (fun p => p.1 == k)).map Prod.snd

/-- Embeds get of q5_collect_a15.py, with its default of NaN. -/
def get (d : List (String × PFloat)) (key : String) : PFloat :=
  (dictLookup d key).getD .nan

/-- Embeds extract_metrics of q5_collect_a15.py. -/
def extract_metrics (stats : List (String × PFloat)) : RunMetrics :=
  { sim_seconds := get stats "simSeconds"
    sim_insts := get stats "simInsts"
    num_cycles := get stats "system.cpu.numCycles"
    ipc := get stats "system.cpu.ipc"
    cpi := get stats "system.cpu.cpi"
    l1i_miss_rate := get stats "system.cpu.icache.overallMissRate::total"
    l1d_miss_rate := get stats "system.cpu.dcache.overallMissRate::total"
    l2_miss_rate := get stats "system.l2cache.overallMissRate::total"
    l1i_accesses := get stats "system.cpu.icache.overallAccesses::total"
    l1i_misses := get stats "system.cpu.icache.overallMisses::total"
    l1d_accesses := get stats "system.cpu.dcache.overallAccesses::total"
    l1d_misses := get stats "system.cpu.dcache.overallMisses::total"
    l2_accesses := get stats "system.l2cache.overallAccesses::total"
    l2_misses := get stats "system.l2cache.overallMisses::total"
    bp_cond_pred := get stats "system.cpu.branchPred.condPredicted"
    bp_cond_incorrect := get stats "system.cpu.branchPred.condIncorrect" }

/-- Embeds l1_size_to_int_kb of q5_collect_a15.py: a full match of digits
followed by the letters kB yields the integer value of the digits; any
other label raises ValueError, modelled as none. -/
def l1_size_to_int_kb (label : String) : Option ℕ :=
  if (label.data.takeWhile Char.isDigit).isEmpty then none
  else if label.data.dropWhile Char.isDigit = ['k', 'B'] then
    some (digitsToNat (label.data.takeWhile Char.isDigit))
  else none

/-- Drop an exact literal from the head of the input, or fail. -/
def dropLit : List Char → List Char → Option (List Char)
  | [], s => some s
  | _ :: _, [] => none
  | c :: cs, x :: xs => if x = c then dropLit cs xs else none

/-- Match EXIT_LINE_RE against a whole (already stripped) line and return
the cause group. -/
def matchExitLine (l : List Char) : Option (List Char) :=
  match dropLit "Exiting @ tick ".data l with
  | none => none
  | some r =>
    if (r.takeWhile Char.isDigit).isEmpty then none
    else
      match dropLit " because ".data (r.dropWhile Char.isDigit) with
      | none => none
      | some c => some c

/-- Body of the scanning loop shared by read_exit_cause and
tail_exit_cause: a line matching EXIT_LINE_RE (after stripping) replaces
the remembered cause with its stripped cause group. -/
def exitFoldStep (cause : String) (line : String) : String :=
  match matchExitLine (pyStrip line.data) with
  | some c => String.mk (pyStrip c)
  | none => cause

/-- Embeds read_exit_cause of q5_collect_a15.py: scan every line of the
console log, remembering the (stripped) cause group of the last line that
matches EXIT_LINE_RE; a missing file or no matching line yields the empty
string. -/
def read_exit_cause (file : Option (List String)) : String :=
  match file with
  | none => ""
  | some lines => lines.foldl exitFoldStep ""

/-- Embeds tail_exit_cause of q4_estimate_a7.py (the same scan against the
same pattern). -/
def tail_exit_cause (file : Option (List String)) : String :=
  match file with
  | none => ""
  | some lines => lines.foldl exitFoldStep ""

/-- Does the haystack start with the needle? -/
def startsWithB : List Char → List Char → Bool
  | [], _ => true
  | _ :: _, [] => false
  | c :: cs, x :: xs => x = c && startsWithB cs xs

/-- Python substring membership: needle in haystack. -/
def isSubList (needle : List Char) : List Char → Bool
  | [] => needle.isEmpty
  | x :: xs => startsWithB needle (x :: xs) || isSubList needle xs

/-- Embeds is_complete_exit of q5_collect_a15.py: an empty cause is not
complete; a cause whose lowering contains one of the two early-termination
phrases is incomplete; anything else is complete. -/
def is_complete_exit (cause : String) : Bool :=
  match cause.data with
  | [] => false
  | c :: cs =>
    let lowered := (c :: cs).map Char.toLower
    if isSubList "max instruction count".data lowered then false
    else if isSubList "user interrupt".data lowered then false
    else true

/-- One step of the best-so-far scan in best_l1 of q5_collect_a15.py. -/
def bestStep (lookup : String → Option RunMetrics)
    (best : Option (String × RunMetrics)) (l : String) :
    Option (String × RunMetrics) :=
  match lookup l with
  | none => best
  | some m =>
    match best with
    | none => some (l, m)
    | some b => if PFloat.lt m.num_cycles b.2.num_cycles then some (l, m) else best

/-- Embeds best_l1 of q5_collect_a15.py.  The per-application dict is the
lookup function, the completeness test on a configuration label is ok, and
the RuntimeError raised when no data exists is modelled as none.  The
candidates are the labels that are both present and complete; when none
is, all present labels. -/
def best_l1 (labels : List String) (lookup : String → Option RunMetrics)
    (ok : String → Bool) : Option (String × RunMetrics) :=
  (if (labels.filter (fun l => (lookup l).isSome && ok l)).isEmpty then
    labels.filter (fun l => (lookup l).isSome)
  else
    labels.filter (fun l => (lookup l).isSome && ok l)).foldl
    (bestStep lookup) none

/-- Splitter for Python str.split with no separator: split on runs of
whitespace, dropping empty pieces.  The first argument accumulates the
current word in reverse. -/
def pySplitAux : List Char → List Char → List (List Char)
  | [], acc => if acc.isEmpty then [] else [acc.reverse]
  | c :: cs, acc =>
    if pySpace c then
      if acc.isEmpty then pySplitAux cs [] else acc.reverse :: pySplitAux cs []
    else pySplitAux cs (c :: acc)

/-- Python str.split() on whitespace. -/
def pySplit (s : List Char) : List (List Char) := pySplitAux s []

/-- Model of Python float(token) for finite decimal literals: optional
surrounding whitespace, an optional sign, and digits with an optional
fraction and exponent, where at least one digit must appear around the
decimal point.  Tokens outside this grammar raise ValueError (none). -/
def pyFloatOfChars (s0 : List Char) : Option PFloat :=
  let s := pyStrip s0
  let p := parseSign s
  let intDs := p.2.takeWhile Char.isDigit
  let r1 := p.2.dropWhile Char.isDigit
  let fracRes : Option (ℚ × List Char) :=
    match r1 with
    | c :: t =>
      if c = '.' then
        let fd := t.takeWhile Char.isDigit
        if intDs.isEmpty && fd.isEmpty then none
        else some (fracDigitsVal fd, t.dropWhile Char.isDigit)
      else if intDs.isEmpty then none else some (0, r1)
    | [] => if intDs.isEmpty then none else some (0, r1)
  match fracRes with
  | none => none
  | some (fr, r2) =>
    let expRes : Option (ℤ × List Char) :=
      match r2 with
      | c :: t =>
        if c = 'e' || c = 'E' then
          let q := parseSignZ t
          let ed := q.2.takeWhile Char.isDigit
          if ed.isEmpty then none
          else some (q.1 * (digitsToNat ed : ℤ), q.2.dropWhile Char.isDigit)
        else some (0, r2)
      | [] => some (0, [])
    match expRes with
    | none => none
    | some (ex, r3) =>
      if r3.isEmpty then
        some (.val (p.1 * ((digitsToNat intDs : ℚ) + fr) * (10 : ℚ) ^ ex))
      else none

/-- Loop of stat_value of q4_estimate_a7.py over the lines of the report:
skip blank, dash and hash lines and lines not starting with the key; on
the first remaining line with at least two whitespace-separated parts,
return the float value of the second part, or None (the whole scan stops)
when that token fails to parse. -/
def statValueGo : List String → String → Option PFloat
  | [], _ => none
  | line :: rest, key =>
    match pyStrip line.data with
    | [] => statValueGo rest key
    | c :: cs =>
      if c = '-' || c = '#' then statValueGo rest key
      else if !startsWithB key.data (c :: cs) then statValueGo rest key
      else
        match pySplit (c :: cs) with
        | _ :: p1 :: _ =>
          match pyFloatOfChars p1 with
          | some v => some v
          | none => none
        | _ => statValueGo rest key

/-- Embeds stat_value of q4_estimate_a7.py (None both for a missing file
and for a failed scan). -/
def stat_value (file : Option (List String)) (key : String) : Option PFloat :=
  match file with
  | none => none
  | some lines => statValueGo lines key

/-- One result row of the CSV produced by main of q5_collect_a15.py. -/
structure Row where
  app : String
  l1 : String
  l1_kb : ℕ
  complete : ℕ
  exit_cause : String
  simSeconds : PFloat
  simInsts : PFloat
  numCycles : PFloat
  ipc : PFloat
  cpi : PFloat
  l1i_miss_rate : PFloat
  l1d_miss_rate : PFloat
  l2_miss_rate : PFloat
  bp_cond_miss_rate : PFloat
deriving DecidableEq, Repr

/-- The sort key used by main: the pair (str(app), int(l1_kb)) compared
lexicographically, strings by code points. -/
def rowKeyLe (r s : Row) : Bool :=
  decide ((toLex (r.app.data, r.l1_kb)) ≤ (toLex (s.app.data, s.l1_kb)))

/-- The sorted(rows, key=...) call of main (Python sorted is a stable
merge sort). -/
def sortRows (rows : List Row) : List Row :=
  rows.mergeSort rowKeyLe

/-- One line of the emitted CSV: the fixed header or a data row. -/
inductive CsvLine where
  | header : CsvLine
  | data : Row → CsvLine
deriving DecidableEq

/-- Embeds the CSV emission of main: the fixed header row followed by the
data rows in sorted order. -/
def csv_lines (rows : List Row) : List CsvLine :=
  .header :: (sortRows rows).map .data

/-- Decimal digits of n, most significant first (str(n) for n a natural
number), accumulator-style. -/
def natDigitsAux (n : ℕ) (acc : List Char) : List Char :=
  if h : n < 10 then Nat.digitChar n :: acc
  else natDigitsAux (n / 10) (Nat.digitChar (n % 10) :: acc)
termination_by n
decreasing_by
  exact Nat.div_lt_self (by omega) (by omega)

/-- Decimal digits of n, most significant first. -/
def natDigits (n : ℕ) : List Char := natDigitsAux n []

/-- A well-formed numeric token as matched by the value group of
STAT_LINE_RE: an optional sign, integer digits, an optional fractional
part and an optional exponent part (marker letter, optional sign,
digits). -/
structure NumToken where
  sgn : List Char
  intDs : List Char
  frac : Option (List Char)
  ex : Option (Char × List Char × List Char)

/-- Well-formedness of the pieces of a numeric token. -/
def NumToken.WF (t : NumToken) : Prop :=
  (t.sgn = [] ∨ t.sgn = ['-'] ∨ t.sgn = ['+']) ∧
  t.intDs ≠ [] ∧ (∀ c ∈ t.intDs, c.isDigit = true) ∧
  (∀ fd, t.frac = some fd → fd ≠ [] ∧ ∀ c ∈ fd, c.isDigit = true) ∧
  (∀ m sg ed, t.ex = some (m, sg, ed) →
    (m = 'e' ∨ m = 'E') ∧ (sg = [] ∨ sg = ['-'] ∨ sg = ['+']) ∧
    ed ≠ [] ∧ ∀ c ∈ ed, c.isDigit = true)

/-- The characters of a numeric token. -/
def NumToken.chars (t : NumToken) : List Char :=
  t.sgn ++ t.intDs ++
  (match t.frac with
   | none => []
   | some fd => '.' :: fd) ++
  (match t.ex with
   | none => []
   | some (m, sg, ed) => m :: (sg ++ ed))

/-- The rational value denoted by a numeric token. -/
def NumToken.value (t : NumToken) : ℚ :=
  (if t.sgn = ['-'] then (-1 : ℚ) else 1) *
    ((digitsToNat t.intDs : ℚ) +
      (match t.frac with
       | none => 0
       | some fd => fracDigitsVal fd)) *
    (10 : ℚ) ^
      (match t.ex with
       | none => (0 : ℤ)
       | some (_, sg, ed) =>
         (if sg = ['-'] then (-1 : ℤ) else 1) * (digitsToNat ed : ℤ))

/-- What may follow a well-formed stat line's value group: nothing, or
whitespace and then a hash comment running to the end of the line. -/
def tailOk (tail : List Char) : Prop :=
  tail = [] ∨ ∃ sp com, tail = sp ++ '#' :: com ∧ ∀ c ∈ sp, pySpace c = true

/-- What may follow a numeric token without extending its match: nothing,
or a character that cannot continue the token (not a digit, dot or
exponent letter). -/
def restOk (rest : List Char) : Prop :=
  rest = [] ∨
    ∃ c t, rest = c :: t ∧ c.isDigit = false ∧ c ≠ '.' ∧ c ≠ 'e' ∧ c ≠ 'E'

/-- The numeric token 42, for concrete checks. -/
def tok42 : NumToken := ⟨[], ['4', '2'], none, none⟩

/-- A run-metrics record with a given cycle count and zeros elsewhere
(used for concrete check data). -/
def mkRun (cycles insts : ℚ) (ipcv : ℚ) : RunMetrics :=
  { sim_seconds := .val 0
    sim_insts := .val insts
    num_cycles := .val cycles
    ipc := .val ipcv
    cpi := .val 0
    l1i_miss_rate := .val 0
    l1d_miss_rate := .val 0
    l2_miss_rate := .val 0
    l1i_accesses := .val 0
    l1i_misses := .val 0
    l1d_accesses := .val 0
    l1d_misses := .val 0
    l2_accesses := .val 0
    l2_misses := .val 0
    bp_cond_pred := .val 0
    bp_cond_incorrect := .val 0 }

/-- Concrete configuration sweep for checking best_l1: a complete
configuration with 300 cycles and an incomplete one with 100 cycles. -/
def exLabels : List String := ["2kB", "4kB"]

/-- Concrete per-configuration metrics for checking best_l1. -/
def exLookup : String → Option RunMetrics := fun l =>
  if l = "2kB" then some (mkRun 300 0 0)
  else if l = "4kB" then some (mkRun 100 0 0)
  else none

/-- Concrete completeness flags for checking best_l1: only the slower
configuration ran to completion. -/
def exOk : String → Bool := fun l => l == "2kB"

/-- The head of the list, if any, falsifies the predicate. -/
def headNotP (p : Char → Bool) : List Char → Prop
  | [] => True
  | c :: _ => p c = false

/-! Helper lemmas about scanning runs of characters. -/

theorem takeWhile_append_run {p : Char → Bool} {l₁ l₂ : List Char}
    (h1 : ∀ c ∈ l₁, p c = true) (h2 : headNotP p l₂) :
    (l₁ ++ l₂).takeWhile p = l₁ := by
  induction l₁ with
  | nil =>
    cases l₂ with
    | nil => rfl
    | cons c t => simp only [headNotP] at h2; simp [List.takeWhile_cons, h2]
  | cons c t ih =>
    have hc := h1 c (by simp)
    simp only [List.cons_append, List.takeWhile_cons, hc, if_true]
    rw [ih (fun x hx => h1 x (by simp [hx]))]

theorem dropWhile_append_run {p : Char → Bool} {l₁ l₂ : List Char}
    (h1 : ∀ c ∈ l₁, p c = true) (h2 : headNotP p l₂) :
    (l₁ ++ l₂).dropWhile p = l₂ := by
  induction l₁ with
  | nil =>
    cases l₂ with
    | nil => rfl
    | cons c t => simp only [headNotP] at h2; simp [List.dropWhile_cons, h2]
  | cons c t ih =>
    have hc := h1 c (by simp)
    simp only [List.cons_append, List.dropWhile_cons, hc, if_true]
    exact ih (fun x hx => h1 x (by simp [hx]))

theorem dropWhile_headNot {p : Char → Bool} {l : List Char} (h : headNotP p l) :
    l.dropWhile p = l := by
  cases l with
  | nil => rfl
  | cons c t => simp only [headNotP] at h; simp [List.dropWhile_cons, h]

theorem dropWhile_ne_nil_of_mem {p : Char → Bool} {l : List Char}
    (h : ∃ c ∈ l, p c = false) : l.dropWhile p ≠ [] := by
  induction l with
  | nil => simp at h
  | cons c t ih =>
    rcases h with ⟨x, hx, hpx⟩
    by_cases hc : p c = true
    · simp only [List.dropWhile_cons, hc, if_true]
      apply ih
      rcases List.mem_cons.mp hx with h1 | h1
      · subst h1; rw [hc] at hpx; cases hpx
      · exact ⟨x, h1, hpx⟩
    · simp [List.dropWhile_cons, hc]

theorem dropTrailing_append_of_nospace {x tail : List Char}
    (h : ∃ c ∈ tail, pySpace c = false) :
    dropTrailing (x ++ tail) = x ++ dropTrailing tail := by
  unfold dropTrailing
  rw [List.reverse_append, List.dropWhile_append]
  have hne : tail.reverse.dropWhile pySpace ≠ [] := by
    apply dropWhile_ne_nil_of_mem
    rcases h with ⟨c, hc, hpc⟩
    exact ⟨c, List.mem_reverse.mpr hc, hpc⟩
  rw [if_neg (by simpa using hne)]
  simp

theorem dropTrailing_cons_nospace {c : Char} {l : List Char}
    (h : pySpace c = false) :
    dropTrailing (c :: l) = c :: dropTrailing l := by
  by_cases hl : ∃ d ∈ l, pySpace d = false
  · have := @dropTrailing_append_of_nospace [c] l hl
    simpa using this
  · push_neg at hl
    have hall : ∀ d ∈ l, pySpace d = true := by
      intro d hd
      cases hb : pySpace d with
      | false => exact absurd hb (hl d hd)
      | true => rfl
    have hrev : l.reverse.dropWhile pySpace = [] := by
      rw [List.dropWhile_eq_nil_iff]
      intro d hd
      exact hall d (List.mem_reverse.mp hd)
    unfold dropTrailing
    rw [List.reverse_cons, List.dropWhile_append, if_pos (by simpa using hrev)]
    simp [List.dropWhile_cons, h, hrev]

theorem dropTrailing_nil : dropTrailing [] = [] := rfl

theorem dropTrailing_append_single {l : List Char} {c : Char}
    (h : pySpace c = false) : dropTrailing (l ++ [c]) = l ++ [c] := by
  unfold dropTrailing
  rw [List.reverse_append]
  simp [List.dropWhile_cons, h]

theorem PFloat.val_add (a b : ℚ) :
    PFloat.val a + PFloat.val b = PFloat.val (a + b) := rfl

theorem safe_divT_val {a b : ℚ} (hb : b ≠ 0) :
    safe_divT (.val a) (.val b) = .val (a / b) := by
  simp [safe_divT, safe_div, PFloat.eqZero, PFloat.isNan, PFloat.div, hb]

/-! Claim theorems. -/

/-- C1: the aggregator sum_runs sums every raw counter field-wise and
recomputes every derived rate from the summed counters (never from the
inputs' own rates); on the concrete runs (cycles 100, insts 50) and
(cycles 200, insts 100) it yields numCycles 300, simInsts 150 and
ipc 1/2, and on runs with individual ipc 1 and 1/10 it yields the
recomputed 13/40, which differs from the average of the two rates. -/
theorem sum_runs_sums_and_recomputes :
    (∀ a b : RunMetrics,
      (sum_runs a b).sim_seconds = a.sim_seconds + b.sim_seconds ∧
      (sum_runs a b).sim_insts = a.sim_insts + b.sim_insts ∧
      (sum_runs a b).num_cycles = a.num_cycles + b.num_cycles ∧
      (sum_runs a b).l1i_accesses = a.l1i_accesses + b.l1i_accesses ∧
      (sum_runs a b).l1i_misses = a.l1i_misses + b.l1i_misses ∧
      (sum_runs a b).l1d_accesses = a.l1d_accesses + b.l1d_accesses ∧
      (sum_runs a b).l1d_misses = a.l1d_misses + b.l1d_misses ∧
      (sum_runs a b).l2_accesses = a.l2_accesses + b.l2_accesses ∧
      (sum_runs a b).l2_misses = a.l2_misses + b.l2_misses ∧
      (sum_runs a b).bp_cond_pred = a.bp_cond_pred + b.bp_cond_pred ∧
      (sum_runs a b).bp_cond_incorrect = a.bp_cond_incorrect + b.bp_cond_incorrect ∧
      (sum_runs a b).ipc =
        safe_divT (a.sim_insts + b.sim_insts) (a.num_cycles + b.num_cycles) ∧
      (sum_runs a b).cpi =
        safe_divT (a.num_cycles + b.num_cycles) (a.sim_insts + b.sim_insts) ∧
      (sum_runs a b).l1i_miss_rate =
        safe_divT (a.l1i_misses + b.l1i_misses) (a.l1i_accesses + b.l1i_accesses) ∧
      (sum_runs a b).l1d_miss_rate =
        safe_divT (a.l1d_misses + b.l1d_misses) (a.l1d_accesses + b.l1d_accesses) ∧
      (sum_runs a b).l2_miss_rate =
        safe_divT (a.l2_misses + b.l2_misses) (a.l2_accesses + b.l2_accesses)) ∧
    (sum_runs (mkRun 100 50 (1/2)) (mkRun 200 100 (1/2))).num_cycles = .val 300 ∧
    (sum_runs (mkRun 100 50 (1/2)) (mkRun 200 100 (1/2))).sim_insts = .val 150 ∧
    (sum_runs (mkRun 100 50 (1/2)) (mkRun 200 100 (1/2))).ipc = .val (1/2) ∧
    (sum_runs (mkRun 100 100 1) (mkRun 300 30 (1/10))).ipc = .val (13/40) ∧
    PFloat.val (13/40) ≠ PFloat.val (((1 : ℚ) + 1/10) / 2) := by
  refine ⟨fun a b => ⟨rfl, rfl, rfl, rfl, rfl, rfl, rfl, rfl, rfl, rfl, rfl,
    rfl, rfl, rfl, rfl, rfl⟩, ?_, ?_, ?_, ?_, ?_⟩
  · have h : (sum_runs (mkRun 100 50 (1/2)) (mkRun 200 100 (1/2))).num_cycles
        = PFloat.val (100 + 200) := rfl
    rw [h]; simp only [PFloat.val.injEq]; norm_num
  · have h : (sum_runs (mkRun 100 50 (1/2)) (mkRun 200 100 (1/2))).sim_insts
        = PFloat.val (50 + 100) := rfl
    rw [h]; simp only [PFloat.val.injEq]; norm_num
  · have h : (sum_runs (mkRun 100 50 (1/2)) (mkRun 200 100 (1/2))).ipc
        = safe_divT (.val (50 + 100)) (.val (100 + 200)) := rfl
    rw [h, safe_divT_val (by norm_num)]
    simp only [PFloat.val.injEq]; norm_num
  · have h : (sum_runs (mkRun 100 100 1) (mkRun 300 30 (1/10))).ipc
        = safe_divT (.val (100 + 30)) (.val (100 + 300)) := rfl
    rw [h, safe_divT_val (by norm_num)]
    simp only [PFloat.val.injEq]; norm_num
  · intro h
    have := PFloat.val.inj h
    norm_num at this

/-- C5: safe_div never raises: a zero denominator or a NaN operand yields
NaN, and otherwise the result is the exact quotient. -/
theorem safe_div_never_raises :
    ∀ num den : PFloat,
      (safe_div num den).isSome = true ∧
      ((den.eqZero = true ∨ num.isNan = true ∨ den.isNan = true) →
        safe_div num den = some .nan) ∧
      (∀ a b : ℚ, num = .val a → den = .val b → b ≠ 0 →
        safe_div num den = some (.val (a / b))) := by
  intro num den
  refine ⟨?_, ?_, ?_⟩
  · cases num <;> cases den <;>
      simp only [safe_div, PFloat.div, PFloat.eqZero, PFloat.isNan] <;>
      split_ifs <;> simp_all
  · intro h
    rcases h with h | h | h <;> simp [safe_div, h]
  · intro a b ha hb hb0
    subst ha; subst hb
    have h1 : (PFloat.val b).eqZero = false := by
      simp [PFloat.eqZero, hb0]
    simp [safe_div, h1, PFloat.isNan, PFloat.div, hb0]

/-- Witness for the safe_div theorem at concrete operands. -/
theorem safe_div_never_raises_witness :
    safe_div (.val 1) (.val 0) = some .nan ∧
    safe_div (.val 1) (.val 2) = some (.val (1 / 2)) :=
  ⟨(safe_div_never_raises (.val 1) (.val 0)).2.1 (Or.inl (by decide)),
   (safe_div_never_raises (.val 1) (.val 2)).2.2 1 2 rfl rfl (by norm_num)⟩

/-! Substring machinery for is_complete_exit. -/

theorem startsWithB_iff (nd : List Char) : ∀ h : List Char,
    startsWithB nd h = true ↔ ∃ suf, h = nd ++ suf := by
  induction nd with
  | nil => intro h; simp [startsWithB]
  | cons c cs ih =>
    intro h
    cases h with
    | nil =>
      simp only [startsWithB]
      constructor
      · intro hf; cases hf
      · rintro ⟨suf, hsuf⟩; cases hsuf
    | cons x xs =>
      simp only [startsWithB, Bool.and_eq_true, decide_eq_true_eq]
      constructor
      · rintro ⟨hx, hrec⟩
        rcases (ih xs).mp hrec with ⟨suf, hsuf⟩
        exact ⟨suf, by simp [hx, hsuf]⟩
      · rintro ⟨suf, hsuf⟩
        injection hsuf with h1 h2
        exact ⟨h1, (ih xs).mpr ⟨suf, h2⟩⟩

theorem isSubList_iff (nd : List Char) : ∀ h : List Char,
    isSubList nd h = true ↔ ∃ pre suf, h = pre ++ nd ++ suf := by
  intro h
  induction h with
  | nil =>
    simp only [isSubList, List.isEmpty_iff]
    constructor
    · intro hnd; exact ⟨[], [], by simp [hnd]⟩
    · rintro ⟨pre, suf, hps⟩
      rcases List.append_eq_nil.mp (List.append_eq_nil.mp hps.symm).1 with ⟨_, h2⟩
      exact h2
  | cons x xs ih =>
    simp only [isSubList, Bool.or_eq_true, startsWithB_iff, ih]
    constructor
    · rintro (⟨suf, hsuf⟩ | ⟨pre, suf, hps⟩)
      · exact ⟨[], suf, by simp [hsuf]⟩
      · exact ⟨x :: pre, suf, by simp [hps]⟩
    · rintro ⟨pre, suf, hps⟩
      cases pre with
      | nil => exact Or.inl ⟨suf, by simpa using hps⟩
      | cons p ps =>
        injection hps with h1 h2
        exact Or.inr ⟨ps, suf, h2⟩

theorem isSubList_map_toLower {nd h : List Char} (hsub : isSubList nd h = true) :
    isSubList (nd.map Char.toLower) (h.map Char.toLower) = true := by
  rw [isSubList_iff] at hsub ⊢
  rcases hsub with ⟨pre, suf, rfl⟩
  exact ⟨pre.map Char.toLower, suf.map Char.toLower, by simp⟩

theorem lower_phrase_max :
    "max instruction count".data.map Char.toLower = "max instruction count".data := by
  decide

theorem lower_phrase_user :
    "user interrupt".data.map Char.toLower = "user interrupt".data := by
  decide

/-- C3 counterexample: the all-caps cause MAX INSTRUCTION COUNT is
non-empty and contains neither of the two phrases literally, yet the
classifier reports it incomplete (the code lowercases the cause before
testing containment), contradicting "complete for any other non-empty
cause string". -/
theorem is_complete_exit_case_counterexample :
    is_complete_exit "MAX INSTRUCTION COUNT" = false ∧
    ("MAX INSTRUCTION COUNT" : String) ≠ "" ∧
    isSubList "max instruction count".data "MAX INSTRUCTION COUNT".data = false ∧
    isSubList "user interrupt".data "MAX INSTRUCTION COUNT".data = false := by
  exact ⟨by decide, by decide, by decide, by decide⟩

/-- C3 amended: the classifier returns incomplete when the cause contains
"max instruction count" or "user interrupt" up to ASCII case (in
particular when it contains either phrase literally), not complete on the
empty string, and complete on every other non-empty cause. -/
theorem is_complete_exit_amended :
    is_complete_exit "" = false ∧
    (∀ s : String, isSubList "max instruction count".data s.data = true →
      is_complete_exit s = false) ∧
    (∀ s : String, isSubList "user interrupt".data s.data = true →
      is_complete_exit s = false) ∧
    (∀ s : String,
      isSubList "max instruction count".data (s.data.map Char.toLower) = true →
      is_complete_exit s = false) ∧
    (∀ s : String,
      isSubList "user interrupt".data (s.data.map Char.toLower) = true →
      is_complete_exit s = false) ∧
    (∀ s : String, s.data ≠ [] →
      isSubList "max instruction count".data (s.data.map Char.toLower) = false →
      isSubList "user interrupt".data (s.data.map Char.toLower) = false →
      is_complete_exit s = true) := by
  have hmax : ∀ s : String,
      isSubList "max instruction count".data (s.data.map Char.toLower) = true →
      is_complete_exit s = false := by
    intro s hsub
    cases hs : s.data with
    | nil => rw [hs] at hsub; simp [isSubList] at hsub
    | cons c cs =>
      rw [hs] at hsub
      unfold is_complete_exit
      rw [hs]
      simp only [hsub, if_true]
  have huser : ∀ s : String,
      isSubList "user interrupt".data (s.data.map Char.toLower) = true →
      is_complete_exit s = false := by
    intro s hsub
    cases hs : s.data with
    | nil => rw [hs] at hsub; simp [isSubList] at hsub
    | cons c cs =>
      rw [hs] at hsub
      unfold is_complete_exit
      rw [hs]
      by_cases hm : isSubList "max instruction count".data
          ((c :: cs).map Char.toLower) = true
      · simp only [hm, if_true]
      · simp only [Bool.not_eq_true] at hm
        simp only [hm, hsub, if_true, if_false, Bool.false_eq_true]
  refine ⟨rfl, ?_, ?_, hmax, huser, ?_⟩
  · intro s hsub
    apply hmax
    have := isSubList_map_toLower hsub
    rwa [lower_phrase_max] at this
  · intro s hsub
    apply huser
    have := isSubList_map_toLower hsub
    rwa [lower_phrase_user] at this
  · intro s hne hm hu
    cases hs : s.data with
    | nil => exact absurd hs hne
    | cons c cs =>
      rw [hs] at hm hu
      unfold is_complete_exit
      rw [hs]
      simp only [hm, hu, if_false, Bool.false_eq_true]

/-- Witness for the amended is_complete_exit theorem at concrete causes. -/
theorem is_complete_exit_amended_witness :
    is_complete_exit "a max instruction count b" = false ∧
    is_complete_exit "user interrupt received" = false ∧
    is_complete_exit "exiting with last active thread context" = true :=
  ⟨is_complete_exit_amended.2.1 "a max instruction count b" (by decide),
   is_complete_exit_amended.2.2.1 "user interrupt received" (by decide),
   is_complete_exit_amended.2.2.2.2.2 "exiting with last active thread context"
     (by decide) (by decide) (by decide)⟩

/-! Decimal digit printing (str(n)) and its correctness. -/

theorem digitChar_isDigit : ∀ d : ℕ, d < 10 → (Nat.digitChar d).isDigit = true := by
  decide

theorem digitVal_digitChar : ∀ d : ℕ, d < 10 → digitVal (Nat.digitChar d) = d := by
  decide

theorem natDigitsAux_isDigit :
    ∀ n acc, (∀ c ∈ acc, c.isDigit = true) →
      ∀ c ∈ natDigitsAux n acc, c.isDigit = true := by
  intro n
  induction n using Nat.strong_induction_on with
  | _ n ih =>
    intro acc hacc c hc
    rw [natDigitsAux.eq_def] at hc
    split at hc
    · rename_i h
      rcases List.mem_cons.mp hc with h1 | h1
      · subst h1; exact digitChar_isDigit n h
      · exact hacc c h1
    · rename_i h
      exact ih (n / 10) (Nat.div_lt_self (by omega) (by omega))
        (Nat.digitChar (n % 10) :: acc)
        (by
          intro d hd
          rcases List.mem_cons.mp hd with h1 | h1
          · subst h1; exact digitChar_isDigit (n % 10) (Nat.mod_lt _ (by omega))
          · exact hacc d h1)
        c hc

theorem natDigitsAux_ne_nil : ∀ n acc, natDigitsAux n acc ≠ [] := by
  intro n
  induction n using Nat.strong_induction_on with
  | _ n ih =>
    intro acc
    rw [natDigitsAux.eq_def]
    split
    · simp
    · rename_i h
      exact ih (n / 10) (Nat.div_lt_self (by omega) (by omega)) _

theorem digitsToNat_natDigitsAux :
    ∀ n acc,
      List.foldl (fun m c => 10 * m + digitVal c) 0 (natDigitsAux n acc)
        = List.foldl (fun m c => 10 * m + digitVal c) n acc := by
  intro n
  induction n using Nat.strong_induction_on with
  | _ n ih =>
    intro acc
    rw [natDigitsAux.eq_def]
    split
    · rename_i h
      simp only [List.foldl_cons]
      rw [digitVal_digitChar n h]
      norm_num
    · rename_i h
      rw [ih (n / 10) (Nat.div_lt_self (by omega) (by omega))]
      simp only [List.foldl_cons]
      rw [digitVal_digitChar (n % 10) (Nat.mod_lt _ (by omega))]
      have heq : 10 * (n / 10) + n % 10 = n := by omega
      rw [heq]

theorem natDigits_isDigit (n : ℕ) : ∀ c ∈ natDigits n, c.isDigit = true :=
  natDigitsAux_isDigit n [] (by simp)

theorem natDigits_ne_nil (n : ℕ) : natDigits n ≠ [] :=
  natDigitsAux_ne_nil n []

theorem digitsToNat_natDigits (n : ℕ) : digitsToNat (natDigits n) = n := by
  unfold digitsToNat natDigits
  rw [digitsToNat_natDigitsAux]
  rfl

/-- C10: the configuration-size parser accepts exactly the strings made of
the decimal digits of a natural number followed by kB, returning that
number; every other label raises ValueError (modelled as none), and that
is its only failure mode. -/
theorem l1_size_to_int_kb_spec :
    (∀ n : ℕ, l1_size_to_int_kb (String.mk (natDigits n ++ ['k', 'B'])) = some n) ∧
    (∀ s : String,
      l1_size_to_int_kb s = none ↔
        ¬ ∃ ds, ds ≠ [] ∧ (∀ c ∈ ds, c.isDigit = true) ∧
          s.data = ds ++ ['k', 'B']) := by
  have hkB : headNotP Char.isDigit ['k', 'B'] := by
    simp only [headNotP]; decide
  constructor
  · intro n
    unfold l1_size_to_int_kb
    have hdata : (String.mk (natDigits n ++ ['k', 'B'])).data
        = natDigits n ++ ['k', 'B'] := rfl
    rw [hdata, takeWhile_append_run (natDigits_isDigit n) hkB,
      dropWhile_append_run (natDigits_isDigit n) hkB,
      if_neg (by simpa using natDigits_ne_nil n), if_pos rfl,
      digitsToNat_natDigits]
  · intro s
    constructor
    · intro hnone hshape
      rcases hshape with ⟨ds, hne, hdig, hdata⟩
      unfold l1_size_to_int_kb at hnone
      rw [hdata, takeWhile_append_run hdig hkB, dropWhile_append_run hdig hkB,
        if_neg (by simpa using hne), if_pos rfl] at hnone
      cases hnone
    · intro hnshape
      rcases h : l1_size_to_int_kb s with _ | k
      · rfl
      · exfalso
        apply hnshape
        unfold l1_size_to_int_kb at h
        by_cases he : (s.data.takeWhile Char.isDigit).isEmpty
        · rw [if_pos he] at h; cases h
        · rw [if_neg he] at h
          by_cases hr : s.data.dropWhile Char.isDigit = ['k', 'B']
          · refine ⟨s.data.takeWhile Char.isDigit, by simpa using he, ?_, ?_⟩
            · intro c hc
              exact List.mem_takeWhile_imp hc
            · conv_lhs => rw [← @List.takeWhile_append_dropWhile _ Char.isDigit s.data]
              rw [hr]
          · rw [if_neg hr] at h; cases h

/-! CSV row ordering. -/

theorem rowKeyLe_trans (a b c : Row) (hab : rowKeyLe a b = true)
    (hbc : rowKeyLe b c = true) : rowKeyLe a c = true := by
  unfold rowKeyLe at *
  rw [decide_eq_true_iff] at *
  exact le_trans hab hbc

theorem rowKeyLe_total (a b : Row) : (rowKeyLe a b || rowKeyLe b a) = true := by
  unfold rowKeyLe
  rcases le_total (toLex (a.app.data, a.l1_kb)) (toLex (b.app.data, b.l1_kb)) with h | h
  · simp [h]
  · simp [h]

theorem rowKeyLe_iff (r s : Row) :
    rowKeyLe r s = true ↔
      r.app.data < s.app.data ∨ (r.app.data = s.app.data ∧ r.l1_kb ≤ s.l1_kb) := by
  unfold rowKeyLe
  rw [decide_eq_true_iff, Prod.Lex.le_iff]

/-- C7: the emitted CSV is the fixed header line followed by exactly the
accumulated data rows (a permutation, so the multiset is preserved
whatever the accumulation order), arranged so that application names are
non-decreasing and, among equal application names, the numeric
configuration size is non-decreasing. -/
theorem csv_lines_sorted :
    ∀ rows : List Row,
      csv_lines rows = CsvLine.header :: (sortRows rows).map CsvLine.data ∧
      (sortRows rows).Perm rows ∧
      (sortRows rows).Pairwise (fun r s =>
        r.app.data < s.app.data ∨
          (r.app.data = s.app.data ∧ r.l1_kb ≤ s.l1_kb)) := by
  intro rows
  refine ⟨rfl, List.mergeSort_perm rows rowKeyLe, ?_⟩
  have hs := List.sorted_mergeSort rowKeyLe_trans rowKeyLe_total rows
  exact hs.imp (fun h => (rowKeyLe_iff _ _).mp h)

/-! Exit-cause scanning. -/

theorem dropLit_append (lit : List Char) : ∀ r, dropLit lit (lit ++ r) = some r := by
  induction lit with
  | nil => intro r; rfl
  | cons c cs ih => intro r; simp [dropLit, ih]

theorem foldl_exit_none {ls : List String}
    (h : ∀ l ∈ ls, matchExitLine (pyStrip l.data) = none) :
    ∀ a : String, ls.foldl exitFoldStep a = a := by
  induction ls with
  | nil => intro a; rfl
  | cons l t ih =>
    intro a
    have hl := h l (by simp)
    have ht : ∀ l' ∈ t, matchExitLine (pyStrip l'.data) = none :=
      fun l' hl' => h l' (by simp [hl'])
    simp only [List.foldl_cons]
    rw [show exitFoldStep a l = a by simp [exitFoldStep, hl]]
    exact ih ht a

/-- C8: the exit-cause readers return the cause group of the last line
matching the pattern Exiting at tick (digits) because (cause): a
constructed line of that shape matches with exactly its cause part,
the last matching line of the log wins, a log with no matching line (or
a missing file) yields the empty string, and tail_exit_cause of the
second script computes the same function as read_exit_cause. -/
theorem read_exit_cause_spec :
    (∀ (n : ℕ) (c : List Char),
      matchExitLine
        ("Exiting @ tick ".data ++ (natDigits n ++ (" because ".data ++ c)))
        = some c) ∧
    (∀ (ls₁ : List String) (l : String) (ls₂ : List String) (c : List Char),
      matchExitLine (pyStrip l.data) = some c →
      (∀ l' ∈ ls₂, matchExitLine (pyStrip l'.data) = none) →
      read_exit_cause (some (ls₁ ++ l :: ls₂)) = String.mk (pyStrip c)) ∧
    (∀ ls : List String, (∀ l ∈ ls, matchExitLine (pyStrip l.data) = none) →
      read_exit_cause (some ls) = "") ∧
    read_exit_cause none = "" ∧
    (∀ file, tail_exit_cause file = read_exit_cause file) := by
  refine ⟨?_, ?_, ?_, rfl, ?_⟩
  · intro n c
    have hsp : headNotP Char.isDigit (" because ".data ++ c) := by
      show Char.isDigit ' ' = false
      decide
    unfold matchExitLine
    simp only [dropLit_append]
    rw [takeWhile_append_run (natDigits_isDigit n) hsp,
      dropWhile_append_run (natDigits_isDigit n) hsp,
      if_neg (by simpa using natDigits_ne_nil n)]
    simp only [dropLit_append]
  · intro ls₁ l ls₂ c hmatch hnone
    show List.foldl exitFoldStep "" (ls₁ ++ l :: ls₂) = String.mk (pyStrip c)
    rw [List.foldl_append, List.foldl_cons]
    rw [show exitFoldStep (ls₁.foldl exitFoldStep "") l = String.mk (pyStrip c) by
      simp [exitFoldStep, hmatch]]
    exact foldl_exit_none hnone _
  · intro ls h
    show List.foldl exitFoldStep "" ls = ""
    exact foldl_exit_none h ""
  · intro file
    cases file <;> rfl

/-- Witness for the exit-cause theorem on a concrete log. -/
theorem read_exit_cause_spec_witness :
    matchExitLine
      ("Exiting @ tick ".data ++ (natDigits 5 ++ (" because ".data ++ "ok".data)))
      = some "ok".data ∧
    read_exit_cause
      (some ["x", "Exiting @ tick 1 because a", "Exiting @ tick 2 because done "])
      = "done" ∧
    read_exit_cause (some ["no match here"]) = "" := by
  refine ⟨read_exit_cause_spec.1 5 "ok".data, ?_, ?_⟩
  · exact read_exit_cause_spec.2.1 ["x", "Exiting @ tick 1 because a"]
      "Exiting @ tick 2 because done " [] "done".data (by rfl)
      (by intro l' hl'; cases hl')
  · exact read_exit_cause_spec.2.2.1 ["no match here"]
      (by
        intro l hl
        rcases List.mem_singleton.mp hl with rfl
        rfl)

/-! The stats dict as insertion-ordered bindings. -/

theorem parse_stats_file_filterMap (ls : List String) :
    parse_stats_file (some ls) = ls.filterMap parse_line := by
  have hgen : ∀ (ls : List String) (d : List (String × PFloat)),
      ls.foldl
        (fun d line =>
          match parse_line line with
          | none => d
          | some kv => d ++ [kv]) d
      = d ++ ls.filterMap parse_line := by
    intro ls
    induction ls with
    | nil => intro d; simp
    | cons l t ih =>
      intro d
      simp only [List.foldl_cons]
      cases h : parse_line l with
      | none => rw [List.filterMap_cons_none h]; simpa [h] using ih d
      | some kv =>
        rw [List.filterMap_cons_some h]
        have := ih (d ++ [kv])
        simpa [h] using this
  unfold parse_stats_file
  simpa using hgen ls []

/-- C9: when a stat name is bound by several well-formed lines of the
report, the produced mapping holds the value of the last such line. -/
theorem parse_stats_file_last_wins :
    ∀ (ls₁ : List String) (l : String) (ls₂ : List String) (n : String)
      (v : PFloat),
      parse_line l = some (n, v) →
      (∀ l' ∈ ls₂, ∀ v', parse_line l' ≠ some (n, v')) →
      dictLookup (parse_stats_file (some (ls₁ ++ l :: ls₂))) n = some v := by
  intro ls₁ l ls₂ n v hl hafter
  rw [parse_stats_file_filterMap, List.filterMap_append,
    List.filterMap_cons_some hl]
  unfold dictLookup
  rw [List.reverse_append, List.reverse_cons, List.find?_append,
    List.find?_append]
  have hnone : List.find? (fun p => p.1 == n)
      (ls₂.filterMap parse_line).reverse = none := by
    rw [List.find?_eq_none]
    rintro ⟨p1, p2⟩ hp
    simp only [beq_iff_eq]
    intro hpn
    subst hpn
    rcases List.mem_filterMap.mp (List.mem_reverse.mp hp) with ⟨l', hl', hpl'⟩
    exact hafter l' hl' p2 hpl'
  rw [hnone, Option.none_or]
  have hfind : List.find? (fun p => p.1 == n) [(n, v)] = some (n, v) := by
    simp [List.find?]
  rw [hfind]
  rfl

theorem digitsToNat_two_zero : digitsToNat ['2', '0'] = 20 := by decide

theorem parse_line_simInsts20 :
    parse_line "simInsts 20" = some ("simInsts", .val 20) := by
  have h : parse_line "simInsts 20"
      = some ("simInsts",
          .val (1 * ((digitsToNat ['2', '0'] : ℚ) + 0) * (10 : ℚ) ^ (0 : ℤ))) :=
    rfl
  rw [h, digitsToNat_two_zero]
  norm_num

/-- Witness for the last-binding theorem on a concrete report. -/
theorem parse_stats_file_last_wins_witness :
    dictLookup (parse_stats_file (some ["simInsts 10", "simInsts 20", "junk"]))
      "simInsts" = some (.val 20) :=
  parse_stats_file_last_wins ["simInsts 10"] "simInsts 20" ["junk"] "simInsts"
    (.val 20) parse_line_simInsts20
    (by
      intro l' hl' v' hcontra
      rcases List.mem_singleton.mp hl' with rfl
      rw [show parse_line "junk" = none from rfl] at hcontra
      cases hcontra)

/-! Ordering facts for the Python float comparison used by best_l1. -/

theorem PFloat.lt_irrefl (x : PFloat) : PFloat.lt x x = false := by
  cases x with
  | nan => rfl
  | val a => simp [PFloat.lt]

theorem PFloat.lt_trans {x y z : PFloat} (h1 : PFloat.lt x y = true)
    (h2 : PFloat.lt y z = true) : PFloat.lt x z = true := by
  cases x <;> cases y <;> cases z <;> simp_all [PFloat.lt]
  exact h1.trans h2

theorem PFloat.lt_asymm {x y : PFloat} (h : PFloat.lt x y = true) :
    PFloat.lt y x = false := by
  cases x <;> cases y <;> simp_all [PFloat.lt]
  exact le_of_lt h

theorem PFloat.lt_false_of_not_lt_of_lt {m b r : PFloat}
    (h1 : PFloat.lt m b = false) (h2 : PFloat.lt r b = true) :
    PFloat.lt m r = false := by
  cases r <;> cases b <;> simp_all [PFloat.lt]
  cases m with
  | nan => rfl
  | val a =>
    simp only [PFloat.lt] at h1 ⊢
    simp only [decide_eq_false_iff_not, not_lt] at h1 ⊢
    rename_i vb vr
    exact le_of_lt (lt_of_lt_of_le h2 h1)

/-! The best-so-far scan of best_l1. -/

theorem bestFold_go (lookup : String → Option RunMetrics) :
    ∀ (cs : List String) (b : String × RunMetrics),
      ∃ r, cs.foldl (bestStep lookup) (some b) = some r ∧
        (r = b ∨ (r.1 ∈ cs ∧ lookup r.1 = some r.2)) ∧
        (r = b ∨ PFloat.lt r.2.num_cycles b.2.num_cycles = true) ∧
        (∀ l' ∈ cs, ∀ m', lookup l' = some m' →
          PFloat.lt m'.num_cycles r.2.num_cycles = false) := by
  intro cs
  induction cs with
  | nil =>
    intro b
    exact ⟨b, rfl, Or.inl rfl, Or.inl rfl, by simp⟩
  | cons l t ih =>
    intro b
    cases hl : lookup l with
    | none =>
      have hstep : bestStep lookup (some b) l = some b := by
        simp [bestStep, hl]
      rcases ih b with ⟨r, hr, hprov, hord, hmin⟩
      refine ⟨r, ?_, ?_, hord, ?_⟩
      · rw [List.foldl_cons, hstep]; exact hr
      · rcases hprov with h | ⟨h1, h2⟩
        · exact Or.inl h
        · exact Or.inr ⟨List.mem_cons_of_mem _ h1, h2⟩
      · intro l' hl' m' hm'
        rcases List.mem_cons.mp hl' with rfl | hmem
        · rw [hl] at hm'; cases hm'
        · exact hmin l' hmem m' hm'
    | some m =>
      by_cases hlt : PFloat.lt m.num_cycles b.2.num_cycles = true
      · have hstep : bestStep lookup (some b) l = some (l, m) := by
          simp [bestStep, hl, hlt]
        rcases ih (l, m) with ⟨r, hr, hprov, hord, hmin⟩
        refine ⟨r, ?_, ?_, ?_, ?_⟩
        · rw [List.foldl_cons, hstep]; exact hr
        · rcases hprov with h | ⟨h1, h2⟩
          · subst h; exact Or.inr ⟨List.mem_cons_self _ _, hl⟩
          · exact Or.inr ⟨List.mem_cons_of_mem _ h1, h2⟩
        · rcases hord with h | h
          · subst h; exact Or.inr hlt
          · exact Or.inr (PFloat.lt_trans h hlt)
        · intro l' hl' m' hm'
          rcases List.mem_cons.mp hl' with rfl | hmem
          · rw [hl] at hm'
            injection hm' with hm'e
            subst hm'e
            rcases hord with h | h
            · subst h; exact PFloat.lt_irrefl _
            · exact PFloat.lt_asymm h
          · exact hmin l' hmem m' hm'
      · have hstep : bestStep lookup (some b) l = some b := by
          simp [bestStep, hl, hlt]
        rcases ih b with ⟨r, hr, hprov, hord, hmin⟩
        refine ⟨r, ?_, ?_, hord, ?_⟩
        · rw [List.foldl_cons, hstep]; exact hr
        · rcases hprov with h | ⟨h1, h2⟩
          · exact Or.inl h
          · exact Or.inr ⟨List.mem_cons_of_mem _ h1, h2⟩
        · intro l' hl' m' hm'
          rcases List.mem_cons.mp hl' with rfl | hmem
          · rw [hl] at hm'
            injection hm' with hm'e
            have hltf : PFloat.lt m'.num_cycles b.2.num_cycles = false := by
              rw [← hm'e]
              cases hb : PFloat.lt m.num_cycles b.2.num_cycles with
              | false => rfl
              | true => exact absurd hb hlt
            rcases hord with h | h
            · subst h; exact hltf
            · exact PFloat.lt_false_of_not_lt_of_lt hltf h
          · exact hmin l' hmem m' hm'

theorem bestFold_start (lookup : String → Option RunMetrics) :
    ∀ cs : List String, cs ≠ [] → (∀ l ∈ cs, (lookup l).isSome = true) →
      ∃ r : String × RunMetrics,
        cs.foldl (bestStep lookup) none = some r ∧
        r.1 ∈ cs ∧ lookup r.1 = some r.2 ∧
        (∀ l' ∈ cs, ∀ m', lookup l' = some m' →
          PFloat.lt m'.num_cycles r.2.num_cycles = false) := by
  intro cs hne hsome
  cases cs with
  | nil => exact absurd rfl hne
  | cons l t =>
    rcases Option.isSome_iff_exists.mp (hsome l (by simp)) with ⟨m, hm⟩
    have hstep : bestStep lookup none l = some (l, m) := by
      simp [bestStep, hm]
    rcases bestFold_go lookup t (l, m) with ⟨r, hr, hprov, hord, hmin⟩
    refine ⟨r, ?_, ?_, ?_, ?_⟩
    · rw [List.foldl_cons, hstep]; exact hr
    · rcases hprov with h | ⟨h1, _⟩
      · subst h; exact List.mem_cons_self _ _
      · exact List.mem_cons_of_mem _ h1
    · rcases hprov with h | ⟨_, h2⟩
      · subst h; exact hm
      · exact h2
    · intro l' hl' m' hm'
      rcases List.mem_cons.mp hl' with rfl | hmem
      · rw [hm] at hm'
        injection hm' with hm'e
        subst hm'e
        rcases hord with h | h
        · subst h; exact PFloat.lt_irrefl _
        · exact PFloat.lt_asymm h
      · exact hmin l' hmem m' hm'

/-- C2: for every configuration sweep, best_l1 prefers complete
configurations and among them returns one with no strictly smaller cycle
count; when no configuration is complete it compares all configurations
that have a metrics record; when no configuration has a record at all it
raises (returns the error marker none). -/
theorem best_l1_selects :
    ∀ (labels : List String) (lookup : String → Option RunMetrics)
      (ok : String → Bool),
      ((∃ l ∈ labels, (lookup l).isSome = true ∧ ok l = true) →
        ∃ l m, best_l1 labels lookup ok = some (l, m) ∧
          l ∈ labels ∧ lookup l = some m ∧ ok l = true ∧
          (∀ l' ∈ labels, ok l' = true → ∀ m', lookup l' = some m' →
            PFloat.lt m'.num_cycles m.num_cycles = false)) ∧
      ((∀ l ∈ labels, ¬((lookup l).isSome = true ∧ ok l = true)) →
        (∃ l ∈ labels, (lookup l).isSome = true) →
        ∃ l m, best_l1 labels lookup ok = some (l, m) ∧
          l ∈ labels ∧ lookup l = some m ∧
          (∀ l' ∈ labels, ∀ m', lookup l' = some m' →
            PFloat.lt m'.num_cycles m.num_cycles = false)) ∧
      ((∀ l ∈ labels, lookup l = none) → best_l1 labels lookup ok = none) := by
  intro labels lookup ok
  refine ⟨?_, ?_, ?_⟩
  · rintro ⟨l0, hl0mem, hl0some, hl0ok⟩
    have hf1mem : l0 ∈ labels.filter (fun l => (lookup l).isSome && ok l) :=
      List.mem_filter.mpr ⟨hl0mem, by simp [hl0some, hl0ok]⟩
    have hf1ne : labels.filter (fun l => (lookup l).isSome && ok l) ≠ [] :=
      List.ne_nil_of_mem hf1mem
    have hf1some : ∀ l ∈ labels.filter (fun l => (lookup l).isSome && ok l),
        (lookup l).isSome = true := by
      intro l hl
      have := (List.mem_filter.mp hl).2
      simp only [Bool.and_eq_true] at this
      exact this.1
    rcases bestFold_start lookup _ hf1ne hf1some with ⟨r, hr, hmem, hlook, hmin⟩
    refine ⟨r.1, r.2, ?_, (List.mem_filter.mp hmem).1, hlook, ?_, ?_⟩
    · unfold best_l1
      rw [if_neg (by simpa using hf1ne)]
      rw [hr]
    · have := (List.mem_filter.mp hmem).2
      simp only [Bool.and_eq_true] at this
      exact this.2
    · intro l' hl' hok' m' hm'
      exact hmin l' (List.mem_filter.mpr ⟨hl', by simp [hm', hok']⟩) m' hm'
  · intro hnone hex
    have hf1nil : labels.filter (fun l => (lookup l).isSome && ok l) = [] := by
      rw [List.filter_eq_nil_iff]
      intro l hl
      intro hc
      simp only [Bool.and_eq_true] at hc
      exact hnone l hl ⟨hc.1, hc.2⟩
    rcases hex with ⟨l0, hl0mem, hl0some⟩
    have hf2mem : l0 ∈ labels.filter (fun l => (lookup l).isSome) :=
      List.mem_filter.mpr ⟨hl0mem, hl0some⟩
    have hf2ne : labels.filter (fun l => (lookup l).isSome) ≠ [] :=
      List.ne_nil_of_mem hf2mem
    have hf2some : ∀ l ∈ labels.filter (fun l => (lookup l).isSome),
        (lookup l).isSome = true :=
      fun l hl => (List.mem_filter.mp hl).2
    rcases bestFold_start lookup _ hf2ne hf2some with ⟨r, hr, hmem, hlook, hmin⟩
    refine ⟨r.1, r.2, ?_, (List.mem_filter.mp hmem).1, hlook, ?_⟩
    · unfold best_l1
      rw [if_pos (by simp [hf1nil]), hr]
    · intro l' hl' m' hm'
      exact hmin l' (List.mem_filter.mpr ⟨hl', by simp [hm']⟩) m' hm'
  · intro hall
    have hf1nil : labels.filter (fun l => (lookup l).isSome && ok l) = [] := by
      rw [List.filter_eq_nil_iff]
      intro l hl
      simp [hall l hl]
    have hf2nil : labels.filter (fun l => (lookup l).isSome) = [] := by
      rw [List.filter_eq_nil_iff]
      intro l hl
      simp [hall l hl]
    unfold best_l1
    rw [if_pos (by simp [hf1nil]), hf2nil]
    rfl

/-- Witness for best_l1 on the concrete sweep with one complete slower
configuration and one incomplete faster one: the complete 2kB
configuration is chosen. -/
theorem best_l1_selects_witness :
    ∃ m, best_l1 exLabels exLookup exOk = some ("2kB", m) ∧
      exLookup "2kB" = some m := by
  rcases (best_l1_selects exLabels exLookup exOk).1
      ⟨"2kB", by decide, by decide, by decide⟩ with
    ⟨l, m, heq, hmem, hlook, hok, hmin⟩
  have hl : l = "2kB" := by
    have hm : l = "2kB" ∨ l = "4kB" ∨ l ∈ ([] : List String) := by
      simpa [exLabels] using hmem
    rcases hm with h | h | h
    · exact h
    · subst h
      have : exOk "4kB" = false := by decide
      rw [this] at hok; cases hok
    · cases h
  subst hl
  exact ⟨m, heq, hlook⟩

/-! Character-class facts used by the stat-line parser proofs. -/

theorem pySpace_false_of_isDigit {c : Char} (h : c.isDigit = true) :
    pySpace c = false := by
  cases hsp : pySpace c with
  | false => rfl
  | true =>
    exfalso
    simp only [pySpace, Bool.or_eq_true, decide_eq_true_eq] at hsp
    rcases hsp with ((((rfl | rfl) | rfl) | rfl) | rfl) | rfl <;>
      exact absurd h (by decide)

theorem isDigit_ne_dash {c : Char} (h : c.isDigit = true) : c ≠ '-' := by
  intro hc; subst hc; exact absurd h (by decide)

theorem isDigit_ne_plus {c : Char} (h : c.isDigit = true) : c ≠ '+' := by
  intro hc; subst hc; exact absurd h (by decide)

theorem isDigit_ne_dot {c : Char} (h : c.isDigit = true) : c ≠ '.' := by
  intro hc; subst hc; exact absurd h (by decide)

theorem nameChar_false_of_space {c : Char} (h : pySpace c = true) :
    nameChar c = false := by
  simp [nameChar, h]

theorem nameChar_nospace {c : Char} (h : nameChar c = true) :
    pySpace c = false := by
  simp only [nameChar, Bool.and_eq_true, Bool.not_eq_true'] at h
  exact h.2

/-! Component lemmas for the numeric-token parser. -/

theorem parseSign_no_sign {s : List Char}
    (h : headNotP (fun c => c = '-' || c = '+') s) :
    parseSign s = (1, s) := by
  cases s with
  | nil => rfl
  | cons c t =>
    simp only [headNotP, Bool.or_eq_false_iff, decide_eq_false_iff_not] at h
    simp [parseSign, h.1, h.2]

theorem parseSignZ_no_sign {s : List Char}
    (h : headNotP (fun c => c = '-' || c = '+') s) :
    parseSignZ s = (1, s) := by
  cases s with
  | nil => rfl
  | cons c t =>
    simp only [headNotP, Bool.or_eq_false_iff, decide_eq_false_iff_not] at h
    simp [parseSignZ, h.1, h.2]

theorem headNot_sign_of_digit {d : Char} (hd : d.isDigit = true)
    (r : List Char) : headNotP (fun c => c = '-' || c = '+') (d :: r) := by
  simp only [headNotP, Bool.or_eq_false_iff, decide_eq_false_iff_not]
  exact ⟨isDigit_ne_dash hd, isDigit_ne_plus hd⟩

theorem parseFrac_no_dot {s : List Char}
    (h : headNotP (fun c => c = '.') s) :
    parseFrac s = (0, s) := by
  cases s with
  | nil => rfl
  | cons c t =>
    simp only [headNotP, decide_eq_false_iff_not] at h
    simp [parseFrac, h]

theorem parseFrac_dot {fd rest : List Char} (hfd : fd ≠ [])
    (hdig : ∀ c ∈ fd, c.isDigit = true)
    (hrest : headNotP Char.isDigit rest) :
    parseFrac ('.' :: (fd ++ rest)) = (fracDigitsVal fd, rest) := by
  simp only [parseFrac]
  rw [takeWhile_append_run hdig hrest, dropWhile_append_run hdig hrest]
  simp [List.isEmpty_iff, hfd]

theorem parseExp_no_exp {s : List Char}
    (h : headNotP (fun c => c = 'e' || c = 'E') s) :
    parseExp s = (0, s) := by
  cases s with
  | nil => rfl
  | cons c t =>
    simp only [headNotP, Bool.or_eq_false_iff, decide_eq_false_iff_not] at h
    simp only [parseExp]
    rw [if_neg (by simp [h.1, h.2])]

theorem parseExp_exp {m : Char} {sg ed rest : List Char}
    (hm : m = 'e' ∨ m = 'E') (hsg : sg = [] ∨ sg = ['-'] ∨ sg = ['+'])
    (hed : ed ≠ []) (hdig : ∀ c ∈ ed, c.isDigit = true)
    (hrest : headNotP Char.isDigit rest) :
    parseExp (m :: (sg ++ (ed ++ rest)))
      = ((if sg = ['-'] then (-1 : ℤ) else 1) * (digitsToNat ed : ℤ), rest) := by
  have hmm : (m = 'e' || m = 'E') = true := by
    rcases hm with rfl | rfl <;> rfl
  have hsz : parseSignZ (sg ++ (ed ++ rest))
      = ((if sg = ['-'] then (-1 : ℤ) else 1), ed ++ rest) := by
    rcases hsg with rfl | rfl | rfl
    · rw [List.nil_append]
      cases ed with
      | nil => exact absurd rfl hed
      | cons d r =>
        rw [List.cons_append,
          parseSignZ_no_sign (headNot_sign_of_digit (hdig d (by simp)) _)]
        simp [List.cons_append]
    · simp [parseSignZ]
    · simp [parseSignZ]
  simp only [parseExp, hmm, if_true, hsz]
  rw [takeWhile_append_run hdig hrest, dropWhile_append_run hdig hrest,
    if_neg (by simpa using hed)]

theorem restOk_headNot_digit {rest : List Char} (h : restOk rest) :
    headNotP Char.isDigit rest := by
  rcases h with rfl | ⟨c, t, rfl, hd, _, _, _⟩
  · trivial
  · exact hd

theorem restOk_headNot_dot {rest : List Char} (h : restOk rest) :
    headNotP (fun c => c = '.') rest := by
  rcases h with rfl | ⟨c, t, rfl, _, hdot, _, _⟩
  · trivial
  · exact decide_eq_false hdot

theorem restOk_headNot_exp {rest : List Char} (h : restOk rest) :
    headNotP (fun c => c = 'e' || c = 'E') rest := by
  rcases h with rfl | ⟨c, t, rfl, _, _, he, hE⟩
  · trivial
  · simp only [headNotP, Bool.or_eq_false_iff, decide_eq_false_iff_not]
    exact ⟨he, hE⟩

theorem parseSign_token {sgn : List Char}
    (hsgn : sgn = [] ∨ sgn = ['-'] ∨ sgn = ['+'])
    {d : Char} (hd : d.isDigit = true) (r : List Char) :
    parseSign (sgn ++ (d :: r))
      = ((if sgn = ['-'] then (-1 : ℚ) else 1), d :: r) := by
  rcases hsgn with rfl | rfl | rfl
  · rw [List.nil_append, parseSign_no_sign (headNot_sign_of_digit hd _)]
    simp
  · simp [parseSign]
  · simp [parseSign]

theorem exp_head_not_digit {m : Char} (hm : m = 'e' ∨ m = 'E') :
    m.isDigit = false := by
  rcases hm with rfl | rfl <;> decide

theorem exp_head_not_dot {m : Char} (hm : m = 'e' ∨ m = 'E') : m ≠ '.' := by
  rcases hm with rfl | rfl <;> decide

/-- The value group of STAT_LINE_RE matches exactly a well-formed numeric
token at the head of the input, computing its denoted rational value, when
the following character cannot extend the token. -/
theorem parseNum_token {t : NumToken} (hwf : t.WF) {rest : List Char}
    (hrest : restOk rest) :
    parseNum (t.chars ++ rest) = some (t.value, rest) := by
  obtain ⟨sgn, intDs, frac, ex⟩ := t
  obtain ⟨hsgn, hint, hintd, hfrac, hexw⟩ := hwf
  simp only at hsgn hint hintd hfrac hexw
  cases intDs with
  | nil => exact absurd rfl hint
  | cons d ds =>
  have hd : d.isDigit = true := hintd d (by simp)
  cases frac with
  | none =>
    cases ex with
    | none =>
      have hchars : NumToken.chars ⟨sgn, d :: ds, none, none⟩ ++ rest
          = sgn ++ (d :: (ds ++ rest)) := by
        simp [NumToken.chars]
      rw [hchars]
      have htake : (d :: (ds ++ rest)).takeWhile Char.isDigit = d :: ds := by
        rw [← List.cons_append]
        exact takeWhile_append_run hintd (restOk_headNot_digit hrest)
      have hdrop : (d :: (ds ++ rest)).dropWhile Char.isDigit = rest := by
        rw [← List.cons_append]
        exact dropWhile_append_run hintd (restOk_headNot_digit hrest)
      simp only [parseNum, parseSign_token hsgn hd, htake, hdrop,
        parseFrac_no_dot (restOk_headNot_dot hrest),
        parseExp_no_exp (restOk_headNot_exp hrest), List.isEmpty_cons,
        NumToken.value]
      simp
    | some p =>
      obtain ⟨m, sg, ed⟩ := p
      obtain ⟨hm, hsg, hed, hedd⟩ := hexw m sg ed rfl
      have hchars : NumToken.chars ⟨sgn, d :: ds, none, some (m, sg, ed)⟩ ++ rest
          = sgn ++ (d :: (ds ++ (m :: (sg ++ (ed ++ rest))))) := by
        simp [NumToken.chars]
      rw [hchars]
      have hb : headNotP Char.isDigit (m :: (sg ++ (ed ++ rest))) :=
        exp_head_not_digit hm
      have htake : (d :: (ds ++ (m :: (sg ++ (ed ++ rest))))).takeWhile
          Char.isDigit = d :: ds := by
        rw [← List.cons_append]
        exact takeWhile_append_run hintd hb
      have hdrop : (d :: (ds ++ (m :: (sg ++ (ed ++ rest))))).dropWhile
          Char.isDigit = m :: (sg ++ (ed ++ rest)) := by
        rw [← List.cons_append]
        exact dropWhile_append_run hintd hb
      have hfr : parseFrac (m :: (sg ++ (ed ++ rest)))
          = (0, m :: (sg ++ (ed ++ rest))) :=
        parseFrac_no_dot (decide_eq_false (exp_head_not_dot hm))
      simp only [parseNum, parseSign_token hsgn hd, htake, hdrop, hfr,
        parseExp_exp hm hsg hed hedd (restOk_headNot_digit hrest),
        List.isEmpty_cons, NumToken.value]
      simp
  | some fd =>
    cases ex with
    | none =>
      obtain ⟨hfd1, hfd2⟩ := hfrac fd rfl
      have hchars : NumToken.chars ⟨sgn, d :: ds, some fd, none⟩ ++ rest
          = sgn ++ (d :: (ds ++ ('.' :: (fd ++ rest)))) := by
        simp [NumToken.chars]
      rw [hchars]
      have hb : headNotP Char.isDigit ('.' :: (fd ++ rest)) := by
        show Char.isDigit '.' = false
        decide
      have htake : (d :: (ds ++ ('.' :: (fd ++ rest)))).takeWhile Char.isDigit
          = d :: ds := by
        rw [← List.cons_append]
        exact takeWhile_append_run hintd hb
      have hdrop : (d :: (ds ++ ('.' :: (fd ++ rest)))).dropWhile Char.isDigit
          = '.' :: (fd ++ rest) := by
        rw [← List.cons_append]
        exact dropWhile_append_run hintd hb
      simp only [parseNum, parseSign_token hsgn hd, htake, hdrop,
        parseFrac_dot hfd1 hfd2 (restOk_headNot_digit hrest),
        parseExp_no_exp (restOk_headNot_exp hrest), List.isEmpty_cons,
        NumToken.value]
      simp
    | some p =>
      obtain ⟨m, sg, ed⟩ := p
      obtain ⟨hfd1, hfd2⟩ := hfrac fd rfl
      obtain ⟨hm, hsg, hed, hedd⟩ := hexw m sg ed rfl
      have hchars :
          NumToken.chars ⟨sgn, d :: ds, some fd, some (m, sg, ed)⟩ ++ rest
          = sgn ++ (d :: (ds ++ ('.' :: (fd ++ (m :: (sg ++ (ed ++ rest))))))) := by
        simp [NumToken.chars]
      rw [hchars]
      have hb : headNotP Char.isDigit
          ('.' :: (fd ++ (m :: (sg ++ (ed ++ rest))))) := by
        show Char.isDigit '.' = false
        decide
      have htake : (d :: (ds ++ ('.' :: (fd ++ (m :: (sg ++ (ed ++ rest))))))).takeWhile
          Char.isDigit = d :: ds := by
        rw [← List.cons_append]
        exact takeWhile_append_run hintd hb
      have hdrop : (d :: (ds ++ ('.' :: (fd ++ (m :: (sg ++ (ed ++ rest))))))).dropWhile
          Char.isDigit = '.' :: (fd ++ (m :: (sg ++ (ed ++ rest)))) := by
        rw [← List.cons_append]
        exact dropWhile_append_run hintd hb
      have hfrb : headNotP Char.isDigit (m :: (sg ++ (ed ++ rest))) :=
        exp_head_not_digit hm
      simp only [parseNum, parseSign_token hsgn hd, htake, hdrop,
        parseFrac_dot hfd1 hfd2 hfrb,
        parseExp_exp hm hsg hed hedd (restOk_headNot_digit hrest),
        List.isEmpty_cons, NumToken.value]
      simp

theorem space_not_token_char {c : Char} (h : pySpace c = true) :
    c.isDigit = false ∧ c ≠ '.' ∧ c ≠ 'e' ∧ c ≠ 'E' := by
  simp only [pySpace, Bool.or_eq_true, decide_eq_true_eq] at h
  rcases h with ((((rfl | rfl) | rfl) | rfl) | rfl) | rfl <;>
    exact ⟨by decide, by decide, by decide, by decide⟩

theorem tailOk_restOk {tail : List Char} (h : tailOk tail) : restOk tail := by
  rcases h with rfl | ⟨sp, com, rfl, hsp⟩
  · exact Or.inl rfl
  · cases sp with
    | nil =>
      exact Or.inr ⟨'#', com, rfl, by decide, by decide, by decide, by decide⟩
    | cons c sp' =>
      obtain ⟨h1, h2, h3, h4⟩ := space_not_token_char (hsp c (by simp))
      exact Or.inr ⟨c, sp' ++ '#' :: com, rfl, h1, h2, h3, h4⟩

theorem tok_headNot_space {t : NumToken} (hwf : t.WF) (rest : List Char) :
    headNotP pySpace (t.chars ++ rest) := by
  obtain ⟨sgn, intDs, frac, ex⟩ := t
  obtain ⟨hsgn, hint, hintd, _, _⟩ := hwf
  simp only at hsgn hint hintd
  cases intDs with
  | nil => exact absurd rfl hint
  | cons d ds =>
    rcases hsgn with rfl | rfl | rfl
    · show pySpace d = false
      exact pySpace_false_of_isDigit (hintd d (by simp))
    · show pySpace '-' = false
      decide
    · show pySpace '+' = false
      decide

theorem tok_ends_digit {t : NumToken} (hwf : t.WF) :
    ∃ l' d', t.chars = l' ++ [d'] ∧ d'.isDigit = true := by
  obtain ⟨sgn, intDs, frac, ex⟩ := t
  obtain ⟨hsgn, hint, hintd, hfrac, hexw⟩ := hwf
  simp only at hsgn hint hintd hfrac hexw
  cases ex with
  | some p =>
    obtain ⟨m, sg, ed⟩ := p
    obtain ⟨_, _, hed, hedd⟩ := hexw m sg ed rfl
    rcases List.eq_nil_or_concat' ed with rfl | ⟨ed', d', rfl⟩
    · exact absurd rfl hed
    · cases frac with
      | none =>
        refine ⟨sgn ++ intDs ++ (m :: (sg ++ ed')), d', ?_,
          hedd d' (by simp)⟩
        simp [NumToken.chars]
      | some fd =>
        refine ⟨sgn ++ intDs ++ ('.' :: fd) ++ (m :: (sg ++ ed')), d', ?_,
          hedd d' (by simp)⟩
        simp [NumToken.chars]
  | none =>
    cases frac with
    | some fd =>
      obtain ⟨hfd1, hfd2⟩ := hfrac fd rfl
      rcases List.eq_nil_or_concat' fd with rfl | ⟨fd', d', rfl⟩
      · exact absurd rfl hfd1
      · refine ⟨sgn ++ intDs ++ ('.' :: fd'), d', ?_, ?_⟩
        · simp [NumToken.chars]
        · exact hfd2 d' (by simp)
    | none =>
      rcases List.eq_nil_or_concat' intDs with rfl | ⟨ds', d', rfl⟩
      · exact absurd rfl hint
      · refine ⟨sgn ++ ds', d', ?_, ?_⟩
        · simp [NumToken.chars]
        · exact hintd d' (by simp)

/-- STAT_LINE_RE matches a whole stripped line made of a name, whitespace,
a numeric token and an optional comment tail, producing the name and the
token's value. -/
theorem matchStat_token {name ws tail : List Char} {t : NumToken}
    (hname : name ≠ []) (hnc : ∀ c ∈ name, nameChar c = true)
    (hws : ws ≠ []) (hwss : ∀ c ∈ ws, pySpace c = true)
    (hwf : t.WF) (htail : tailOk tail) :
    matchStat (name ++ (ws ++ (t.chars ++ tail))) = some (name, t.value) := by
  obtain ⟨w, ws', rfl⟩ : ∃ w ws', ws = w :: ws' := by
    cases ws with
    | nil => exact absurd rfl hws
    | cons w ws' => exact ⟨w, ws', rfl⟩
  have hnb : headNotP nameChar ((w :: ws') ++ (t.chars ++ tail)) :=
    nameChar_false_of_space (hwss w (by simp))
  have htn : (name ++ ((w :: ws') ++ (t.chars ++ tail))).takeWhile nameChar
      = name := takeWhile_append_run hnc hnb
  have hdn : (name ++ ((w :: ws') ++ (t.chars ++ tail))).dropWhile nameChar
      = (w :: ws') ++ (t.chars ++ tail) := dropWhile_append_run hnc hnb
  have hsb : headNotP pySpace (t.chars ++ tail) := tok_headNot_space hwf tail
  have hts : ((w :: ws') ++ (t.chars ++ tail)).takeWhile pySpace = w :: ws' :=
    takeWhile_append_run hwss hsb
  have hds : ((w :: ws') ++ (t.chars ++ tail)).dropWhile pySpace
      = t.chars ++ tail := dropWhile_append_run hwss hsb
  simp only [matchStat, htn, hdn, hts, hds,
    parseNum_token hwf (tailOk_restOk htail)]
  rw [if_neg (by simpa using hname)]
  simp only [List.isEmpty_cons, Bool.false_eq_true, if_false]
  rcases htail with rfl | ⟨sp, com, rfl, hsp⟩
  · simp
  · have hdc : (sp ++ '#' :: com).dropWhile pySpace = '#' :: com :=
      dropWhile_append_run hsp (show pySpace '#' = false by decide)
    simp [hdc]

/-- Stripping a well-formed stat line removes nothing on the left and
only trailing whitespace of the comment tail on the right. -/
theorem pyStrip_line {nc : Char} {name' ws tail : List Char} {t : NumToken}
    (hnc0 : nameChar nc = true)
    (hwf : t.WF) (htail : tailOk tail) :
    ∃ tail₂, tailOk tail₂ ∧
      pyStrip ((nc :: name') ++ (ws ++ (t.chars ++ tail)))
        = (nc :: name') ++ (ws ++ (t.chars ++ tail₂)) := by
  have hleft : ((nc :: name') ++ (ws ++ (t.chars ++ tail))).dropWhile pySpace
      = (nc :: name') ++ (ws ++ (t.chars ++ tail)) :=
    dropWhile_headNot (nameChar_nospace hnc0)
  unfold pyStrip
  rw [hleft]
  rcases htail with rfl | ⟨sp, com, rfl, hsp⟩
  · refine ⟨[], Or.inl rfl, ?_⟩
    obtain ⟨l', d', hch, hdd⟩ := tok_ends_digit hwf
    have hassoc : (nc :: name') ++ (ws ++ (t.chars ++ []))
        = ((nc :: name') ++ (ws ++ l')) ++ [d'] := by
      simp [hch, List.append_assoc]
    rw [hassoc, dropTrailing_append_single (pySpace_false_of_isDigit hdd)]
  · refine ⟨sp ++ '#' :: dropTrailing com, Or.inr ⟨sp, dropTrailing com, rfl, hsp⟩, ?_⟩
    have hassoc : (nc :: name') ++ (ws ++ (t.chars ++ (sp ++ '#' :: com)))
        = ((nc :: name') ++ (ws ++ (t.chars ++ sp))) ++ ('#' :: com) := by
      simp [List.append_assoc]
    rw [hassoc,
      dropTrailing_append_of_nospace ⟨'#', by simp, by decide⟩,
      dropTrailing_cons_nospace (show pySpace '#' = false by decide)]
    simp [List.append_assoc]

/-- C4: every line of shape name, whitespace, numeric value and optional
hash comment (the name made of non-hash non-space characters and not
starting with the separator dash) is parsed to exactly that (name, value)
pair, and every line the parser skips (blank, separator, or not matching
the stat-line shape) is dropped without affecting the parse of the
surrounding lines. -/
theorem parse_stats_file_line_spec :
    (∀ (nc : Char) (name' ws tail : List Char) (t : NumToken),
      nameChar nc = true → nc ≠ '-' → (∀ c ∈ name', nameChar c = true) →
      ws ≠ [] → (∀ c ∈ ws, pySpace c = true) → t.WF → tailOk tail →
      parse_line (String.mk ((nc :: name') ++ (ws ++ (t.chars ++ tail))))
        = some (String.mk (nc :: name'), .val t.value)) ∧
    (∀ (ls₁ : List String) (l : String) (ls₂ : List String),
      parse_line l = none →
      parse_stats_file (some (ls₁ ++ l :: ls₂))
        = parse_stats_file (some (ls₁ ++ ls₂))) := by
  constructor
  · intro nc name' ws tail t hnc0 hdash hname hws hwss hwf htail
    obtain ⟨tail₂, htail₂, hstrip⟩ :=
      @pyStrip_line nc name' ws tail t hnc0 hwf htail
    have hms := @matchStat_token (nc :: name') ws tail₂ t
      (by simp)
      (by
        intro c hc
        rcases List.mem_cons.mp hc with rfl | hmem
        · exact hnc0
        · exact hname c hmem)
      hws hwss hwf htail₂
    have hdata : (String.mk ((nc :: name') ++ (ws ++ (t.chars ++ tail)))).data
        = (nc :: name') ++ (ws ++ (t.chars ++ tail)) := rfl
    rw [List.cons_append] at hms
    unfold parse_line
    rw [hdata, hstrip]
    simp only [List.cons_append]
    rw [if_neg hdash, hms]
  · intro ls₁ l ls₂ h
    rw [parse_stats_file_filterMap, parse_stats_file_filterMap,
      List.filterMap_append, List.filterMap_append,
      List.filterMap_cons_none h]

theorem tok42_wf : tok42.WF := by
  refine ⟨Or.inl rfl, by decide, by decide, ?_, ?_⟩
  · intro fd hfd
    simp [tok42] at hfd
  · intro m sg ed hed
    simp [tok42] at hed

/-- Witness for the stat-line parsing theorem: the line simInsts 42 is
parsed to the pair (simInsts, 42), and a malformed line between two
well-formed ones is dropped without affecting them. -/
theorem parse_stats_file_line_spec_witness :
    parse_line "simInsts 42" = some ("simInsts", .val tok42.value) ∧
    parse_stats_file (some ["a 1", "bad line !", "b 2"])
      = parse_stats_file (some ["a 1", "b 2"]) := by
  constructor
  · exact parse_stats_file_line_spec.1 's' "imInsts".data [' '] [] tok42
      (by decide) (by decide) (by decide) (by decide) (by decide)
      tok42_wf (Or.inl rfl)
  · exact parse_stats_file_line_spec.2 ["a 1"] "bad line !" ["b 2"] (by rfl)

/-- C6 counterexample: in stat_value of q4_estimate_a7.py, the malformed
token on the first simInsts line makes the whole lookup return None (the
scan stops at the failed float conversion), even though a later line
carries a valid value for the same field; the claim says that value would
still be found.  The second conjunct shows the later line alone does
parse to 42. -/
theorem stat_value_abort_counterexample :
    stat_value (some ["simInsts xyz", "simInsts 42"]) "simInsts" = none ∧
    stat_value (some ["simInsts 42"]) "simInsts" = some (.val 42) := by
  constructor
  · rfl
  · have h : stat_value (some ["simInsts 42"]) "simInsts"
        = some (.val (1 * ((digitsToNat ['4', '2'] : ℚ) + 0)
            * (10 : ℚ) ^ (0 : ℤ))) := rfl
    rw [h, show digitsToNat ['4', '2'] = 42 from by decide]
    norm_num

/-- C6 amended: in parse_stats_file a malformed line is skipped without
affecting the parsing of the other lines; in stat_value a malformed
numeric token on the first key-matching line aborts that lookup (the
whole scan returns None for that key), while a line not matching a key
leaves the scan for that key unaffected, so lookups of other fields still
succeed. -/
theorem stat_value_malformed :
    (∀ (ls₁ : List String) (l : String) (ls₂ : List String),
      parse_line l = none →
      parse_stats_file (some (ls₁ ++ l :: ls₂))
        = parse_stats_file (some (ls₁ ++ ls₂))) ∧
    (∀ (l : String) (rest : List String) (key : String) (c : Char)
      (cs p0 p1 : List Char) (ps : List (List Char)),
      pyStrip l.data = c :: cs →
      (c = '-' || c = '#') = false →
      startsWithB key.data (c :: cs) = true →
      pySplit (c :: cs) = p0 :: p1 :: ps →
      pyFloatOfChars p1 = none →
      statValueGo (l :: rest) key = none) ∧
    (∀ (l : String) (rest : List String) (key : String),
      startsWithB key.data (pyStrip l.data) = false →
      statValueGo (l :: rest) key = statValueGo rest key) := by
  refine ⟨?_, ?_, ?_⟩
  · intro ls₁ l ls₂ h
    rw [parse_stats_file_filterMap, parse_stats_file_filterMap,
      List.filterMap_append, List.filterMap_append,
      List.filterMap_cons_none h]
  · intro l rest key c cs p0 p1 ps hstrip hdash hkey hsplit hfloat
    simp only [statValueGo]
    rw [hstrip]
    simp only [hdash, Bool.false_eq_true, if_false, hkey, Bool.not_true,
      hsplit, hfloat]
  · intro l rest key hkey
    simp only [statValueGo]
    cases hs : pyStrip l.data with
    | nil => simp
    | cons c cs =>
      rw [hs] at hkey
      by_cases hd : (c = '-' || c = '#') = true
      · simp [hd]
      · simp only [Bool.not_eq_true] at hd
        simp [hd, hkey]

/-- Witness for the amended stat_value theorem on concrete reports: the
malformed simInsts token aborts the simInsts lookup, a non-matching line
is passed over, and a malformed stat line does not disturb
parse_stats_file. -/
theorem stat_value_malformed_witness :
    statValueGo ["simInsts xyz", "simInsts 42"] "simInsts" = none ∧
    statValueGo ["otherKey 7", "simInsts 42"] "simInsts"
      = statValueGo ["simInsts 42"] "simInsts" ∧
    parse_stats_file (some ["x 1", "zz !!", "y 2"])
      = parse_stats_file (some ["x 1", "y 2"]) := by
  refine ⟨?_, ?_, ?_⟩
  · exact stat_value_malformed.2.1 "simInsts xyz" ["simInsts 42"] "simInsts"
      's' "imInsts xyz".data "simInsts".data "xyz".data [] rfl (by decide)
      (by decide) rfl rfl
  · exact stat_value_malformed.2.2 "otherKey 7" ["simInsts 42"] "simInsts"
      (by decide)
  · exact stat_value_malformed.1 ["x 1"] "zz !!" ["y 2"] (by rfl)

end Gem5
